import Mathlib

/-!
Verification of `main.py` from `optimize_images_and_videos_python`.

The script walks a directory tree, dispatches media files by extension to an
ffmpeg-based video converter or a Pillow-based image resizer, and optionally
deletes original files.  We embed the script shallowly: the filesystem is a
list of `(directory, basename, data)` entries, paths are handled as
`(directory, basename)` pairs (the script only ever builds a full path as
`os.path.join(root, name)` with a slash, so the pair is a faithful
representation), Python's `os.path.splitext`, `in` (substring), and
`str.startswith` are reimplemented on character lists, Python's `round` and
the `.2f` format specifier are modelled exactly over the rationals (round
half to even), and the external `ffmpeg` process invoked through
`os.system` is an oracle parameter telling whether the output file got
produced and with what exit status (the script inspects neither).

Because `Rat` arithmetic is `@[irreducible]` and cannot be evaluated by
`decide`, the formatting and rounding routines are written over integer
numerator/denominator pairs (`pyRoundAt`, `fmt2`) and connected to their
rational-valued counterparts (`pyRound`, `formatFixed2`) by bridge lemmas.
-/

namespace Optimize

/-- Python `s.startswith(pat)` on character lists: `startsWithL pat cs`
is `true` iff `pat` is an initial segment of `cs`. -/
def startsWithL : List Char → List Char → Bool
  | [], _ => true
  | _ :: _, [] => false
  | p :: ps, c :: cs => p == c && startsWithL ps cs

/-- Python `pat in s` (substring containment) on character lists. -/
def containsSub (pat : List Char) : List Char → Bool
  | [] => startsWithL pat []
  | c :: rest => startsWithL pat (c :: rest) || containsSub pat rest

/-- Python `s.lower()` on character lists. -/
def lowerL (cs : List Char) : List Char := cs.map Char.toLower

/-- Python `os.path.splitext` for a path without separators (the script only ever
applies it to basenames coming from `os.walk`): split at the last dot,
unless every character before that dot is itself a dot, in which case the
extension is empty.  Implemented by scanning the reversed string for its
first dot. -/
def splitextList (cs : List Char) : List Char × List Char :=
  let r := cs.reverse
  let ext_rev := r.takeWhile (fun c => c != '.')
  match r.dropWhile (fun c => c != '.') with
  | [] => (cs, [])
  | _ :: stem_rev =>
    if stem_rev.any (fun c => c != '.') then
      (stem_rev.reverse, '.' :: ext_rev.reverse)
    else (cs, [])

/-- Python's built-in `round` applied to the exact rational `a / b`
(`b > 0` in all uses): floor, then round the fractional part half to
even.  `2 * (a - f * b) ≶ b` compares the fractional part with `1/2`. -/
def pyRoundAt (a b : ℤ) : ℤ :=
  let f := a.fdiv b
  let r2 := 2 * (a - f * b)
  if r2 < b then f
  else if b < r2 then f + 1
  else if f % 2 = 0 then f else f + 1

/-- Python's built-in `round` on an exact rational value. -/
def pyRound (q : ℚ) : ℤ := pyRoundAt q.num (q.den : ℤ)

/-- Python's `.2f` format specifier applied to the exact rational
`num / den` (`den > 0` in all uses): round `num * 100 / den` half to even
and print with two decimal digits. -/
def fmt2 (num den : ℤ) : String :=
  let m := pyRoundAt (num * 100) den
  let sign := if m < 0 then "-" else ""
  let a := m.natAbs
  let frac := a % 100
  let fracStr := if frac < 10 then "0" ++ Nat.repr frac else Nat.repr frac
  sign ++ Nat.repr (a / 100) ++ "." ++ fracStr

/-- Python's `.2f` format specifier on an exact rational value. -/
def formatFixed2 (q : ℚ) : String := fmt2 q.num (q.den : ℤ)

/-- Function `readable_size` from `main.py`: choose the metric by comparing against
successive powers of `base = 1000` and print `size_in_bytes / 1000 ^ k`
with the `.2f` specifier and the unit suffix. -/
def readable_size (size_in_bytes : ℤ) : String :=
  let base : ℤ := 1000
  if size_in_bytes < base then
    fmt2 size_in_bytes 1 ++ "B"
  else if size_in_bytes < base ^ 2 then
    fmt2 size_in_bytes (base ^ 1) ++ "KB"
  else if size_in_bytes < base ^ 3 then
    fmt2 size_in_bytes (base ^ 2) ++ "MB"
  else if size_in_bytes < base ^ 4 then
    fmt2 size_in_bytes (base ^ 3) ++ "GB"
  else if size_in_bytes < base ^ 5 then
    fmt2 size_in_bytes (base ^ 4) ++ "TB"
  else
    fmt2 size_in_bytes (base ^ 5) ++ "PB"

/-- Index of the unit branch `readable_size` takes: `0` for bytes up to
`5` for petabytes. -/
def sizeExp (n : ℤ) : ℕ :=
  if n < 1000 then 0
  else if n < 1000 ^ 2 then 1
  else if n < 1000 ^ 3 then 2
  else if n < 1000 ^ 4 then 3
  else if n < 1000 ^ 5 then 4
  else 5

/-- The unit suffix attached by the `k`-th branch of `readable_size`. -/
def unitName : ℕ → String
  | 0 => "B"
  | 1 => "KB"
  | 2 => "MB"
  | 3 => "GB"
  | 4 => "TB"
  | _ => "PB"

/-- Errors the script can raise: the explicit `FileExistsError` and
`NotADirectoryError` raises, the implicit `UnboundLocalError` when
`sys.platform` matches none of the five listed prefixes, and the
failures `PIL.Image.open` / `img.info["exif"]` / integer division can
produce inside `image_resize`. -/
inductive PyError where
  | fileExistsError (msg : String)
  | notADirectoryError (msg : String)
  | unboundLocalError
  | imageOpenError
  | keyError
  | zeroDivisionError
  deriving DecidableEq, Repr

/-- The `ffmpeg_path` chosen by the `sys.platform` dispatch in
`ffmpeg_command`; `none` when no branch assigns the variable, in which
case line 49 of the script raises `UnboundLocalError`. -/
def ffmpeg_path_for (platform : String) : Option String :=
  if startsWithL "freebsd".toList platform.toList then some "ffmpeg"
  else if startsWithL "linux".toList platform.toList then some "ffmpeg"
  else if startsWithL "win32".toList platform.toList then some ""
  else if startsWithL "cygwin".toList platform.toList then some ""
  else if startsWithL "darwin".toList platform.toList then some "ffmpeg"
  else none

/-- The f-string `f'"{p}"'` used for the input and output paths. -/
def quote (p : String) : String := "\"" ++ p ++ "\""

/-- Python `os.path.join(root, name)` for an absolute `root` without trailing
separator and a separator-free `name` — the only form the script uses. -/
def joinPath (root name : String) : String := root ++ "/" ++ name

/-- What a file contains, as far as the script can observe it: an image
with its pixel dimensions and optional EXIF blob (Pillow's
`img.size` and `img.info["exif"]`), or bytes Pillow cannot open. -/
inductive FileData where
  | img (width height : ℕ) (exif : Option String)
  | raw
  deriving DecidableEq, Repr

/-- One regular file: the directory it lives in, its basename, and its
content as `FileData`. -/
structure FSFile where
  dir : String
  name : String
  data : FileData
  deriving DecidableEq, Repr

/-- The filesystem: the set of directories and the list of regular
files.  Paths are `(dir, name)` pairs; `os.walk` enumerates `files` in
list order. -/
structure FS where
  dirs : List String
  files : List FSFile
  deriving DecidableEq, Repr

/-- Python `os.path.isfile` on a `(dir, name)` pair. -/
def FS.isFile (fs : FS) (d n : String) : Bool :=
  fs.files.any fun e => e.dir == d && e.name == n

/-- Python `os.path.isdir`. -/
def FS.isDir (fs : FS) (d : String) : Bool :=
  fs.dirs.any fun x => x == d

/-- Content lookup, for `Image.open`. -/
def FS.getData (fs : FS) (d n : String) : Option FileData :=
  (fs.files.find? fun e => e.dir == d && e.name == n).map (·.data)

/-- File creation (ffmpeg writing its output, `img.save`).  The new
entry is put in front so that `FS.getData`, which scans from the front,
sees the newest version of a path — writing to an existing path
overwrites its content, as `open(path, "wb")` does. -/
def FS.addFile (fs : FS) (d n : String) (data : FileData) : FS :=
  ⟨fs.dirs, ⟨d, n, data⟩ :: fs.files⟩

/-- Python `os.remove` (what `send_file_to_trash` actually does, despite its
name): drop the path from the filesystem.  Within the script it is only
ever called on files that exist. -/
def FS.removeFile (fs : FS) (d n : String) : FS :=
  ⟨fs.dirs, fs.files.filter fun e => !(e.dir == d && e.name == n)⟩

/-- Function `send_file_to_trash` from `main.py`: the `send2trash` call is
commented out and the file is removed directly. -/
def send_file_to_trash (fs : FS) (d n : String) : FS := fs.removeFile d n

/-- Function `ffmpeg_command` from `main.py`.  The input path is a `(dir, name)`
pair so that the `os.path.isfile` check can consult the modelled
filesystem; the strings placed into the command are built from the
joined path exactly as in the source.  Raises `FileExistsError` when the
input does not exist, then `UnboundLocalError` when `sys.platform`
matches no branch of the dispatch. -/
def ffmpeg_command (fs : FS) (platform : String) (inDir inName : String)
    (output_video : String) (video_crf : ℤ) : Except PyError (List String) :=
  let input_video := joinPath inDir inName
  if ¬ fs.isFile inDir inName then
    .error (.fileExistsError ("File " ++ quote input_video ++ " does not exist"))
  else
    match ffmpeg_path_for platform with
    | none => .error .unboundLocalError
    | some ffmpeg_path =>
      .ok ([ffmpeg_path, "-i", quote input_video]
        ++ ["-c:v", "libx264"]
        ++ ["-preset:v", "ultrafast"]
        ++ ["-crf", toString video_crf]
        ++ ["-c:a", "aac"]
        ++ ["-b:a", "320k"]
        ++ ["-threads", "0"]
        ++ ["-movflags", "+faststart"]
        ++ [quote output_video])

/-- Function `ffmpeg_convert` from `main.py`.  `ff` is the oracle for the
`os.system` call on the joined command: given the original and new
paths it reports whether ffmpeg produced the output file and its exit
status; the script uses neither component.  After the call, the
original is removed iff `delete_original` is set. -/
def ffmpeg_convert (platform : String) (ff : String → String → Bool × ℤ)
    (fs : FS) (origDir origName newDir newName : String)
    (delete_original : Bool) (video_crf : ℤ) : Except PyError FS :=
  let original_file_path := joinPath origDir origName
  let new_file_path := joinPath newDir newName
  match ffmpeg_command fs platform origDir origName new_file_path video_crf with
  | .error e => .error e
  | .ok _command =>
    let outcome := ff original_file_path new_file_path
    let fs1 := if outcome.1 then fs.addFile newDir newName .raw else fs
    if delete_original then .ok (send_file_to_trash fs1 origDir origName)
    else .ok fs1

/-- The dimension computation of `image_resize`: treat `new_width = 0`
as "keep the width", refuse to upscale, and set the height to
`round((new_width * height) / width)`. -/
def image_resize_dims (width height new_width : ℕ) : ℕ × ℕ :=
  let nw := if new_width = 0 then width else new_width
  let nw := if nw > width then width else nw
  (nw, (pyRoundAt ((nw : ℤ) * (height : ℤ)) (width : ℤ)).toNat)

/-- Function `image_resize` from `main.py`.  Opening a non-image or a missing
file raises; a zero-width source raises `ZeroDivisionError` at the
height computation; a source without EXIF raises `KeyError` at
`img_pillow.info["exif"]`; otherwise the resized image is saved with the
source's EXIF carried over and the original is removed iff
`delete_original` is set. -/
def image_resize (fs : FS) (origDir origName newDir newName : String)
    (new_width : ℕ) (delete_original : Bool) (image_quality : ℕ) :
    Except PyError FS :=
  match fs.getData origDir origName with
  | none => .error .imageOpenError
  | some .raw => .error .imageOpenError
  | some (.img width height exif) =>
    if width = 0 then .error .zeroDivisionError
    else
      match exif with
      | none => .error .keyError
      | some exifData =>
        let dims := image_resize_dims width height new_width
        let _ := image_quality
        let fs1 := fs.addFile newDir newName (.img dims.1 dims.2 (some exifData))
        if delete_original then .ok (send_file_to_trash fs1 origDir origName)
        else .ok fs1

/-- The extension lists and the converted-files tag from `main`. -/
def video_extensions : List String := [".mp4", ".mov", ".mkv"]

/-- Image extensions accepted by the dispatcher. -/
def image_extensions : List String := [".jpg", ".jpeg", ".png"]

/-- The list `allowed_extensions = video_extensions + image_extensions`. -/
def allowed_extensions : List String := video_extensions ++ image_extensions

/-- The marker `converted_tag`: appended to the stem of every produced file. -/
def converted_tag : String := "_CONVERTED"

/-- A dispatch performed by the walker: which converter ran, on which
`(root, file)`, producing which sibling basename. -/
inductive Event where
  | video (dir name newName : String)
  | image (dir name newName : String)
  deriving DecidableEq, Repr

/-- The basename of the original file an event dispatched. -/
def Event.origName : Event → String
  | .video _ n _ => n
  | .image _ n _ => n

/-- The parameters `main` receives (in the script they are hard-coded
constants passed from the entry point). -/
structure Args where
  delete_original : Bool
  new_image_width : ℕ
  image_quality : ℕ
  video_crf : ℤ
  deriving DecidableEq, Repr

/-- The lower-cased `os.path.splitext` extension of a basename. -/
def extLowerOf (file : String) : String := ⟨lowerL (splitextList file.toList).2⟩

/-- Whether the stem (`file_name` in the script) contains
`converted_tag`, which makes the walker skip the file. -/
def taggedStem (file : String) : Bool :=
  containsSub converted_tag.toList (splitextList file.toList).1

/-- The output name `new_file_name = file_name + converted_tag + extension`. -/
def new_name (file : String) : String :=
  let se := splitextList file.toList
  ⟨se.1 ++ converted_tag.toList ++ se.2⟩

/-- The body of the inner loop of `main`: classify one `(root, file)`
pair, skip disallowed extensions, already-tagged stems and existing
outputs, otherwise dispatch to `ffmpeg_convert` or `image_resize`,
recording the dispatch as an `Event`. -/
def processFile (platform : String) (ff : String → String → Bool × ℤ)
    (a : Args) (fs : FS) (root file : String) :
    Except PyError (FS × List Event) :=
  let extLower := extLowerOf file
  if ¬ allowed_extensions.contains extLower then .ok (fs, [])
  else if taggedStem file then .ok (fs, [])
  else
    let new_file_name := new_name file
    if fs.isFile root new_file_name then .ok (fs, [])
    else if video_extensions.contains extLower then
      match ffmpeg_convert platform ff fs root file root new_file_name
          a.delete_original a.video_crf with
      | .error e => .error e
      | .ok fs' => .ok (fs', [.video root file new_file_name])
    else if image_extensions.contains extLower then
      match image_resize fs root file root new_file_name
          a.new_image_width a.delete_original a.image_quality with
      | .error e => .error e
      | .ok fs' => .ok (fs', [.image root file new_file_name])
    else .ok (fs, [])

/-- The walk over a precomputed enumeration of `(root, file)` pairs.  An
uncaught exception from any file aborts the whole walk on the spot
(there is no per-file error handling in the script); the filesystem as
of the raise and the events so far are discarded in the Python process
too, so we return the pre-step state together with the error. -/
def walkFiles (platform : String) (ff : String → String → Bool × ℤ)
    (a : Args) : List (String × String) → FS → FS × List Event × Option PyError
  | [], fs => (fs, [], none)
  | (root, file) :: rest, fs =>
    match processFile platform ff a fs root file with
    | .error e => (fs, [], some e)
    | .ok (fs1, ev1) =>
      let r := walkFiles platform ff a rest fs1
      (r.1, ev1 ++ r.2.1, r.2.2)

/-- Whether directory `d` lies at or below `root`. -/
def underRoot (root d : String) : Bool :=
  d == root || startsWithL (root ++ "/").toList d.toList

/-- The `(root, file)` pairs `os.walk(main_folder_path)` yields.  The
script only ever creates files in the directory currently being
visited, whose listing `os.walk` took before processing started, so
enumerating the tree once at the start is faithful. -/
def snapshot (fs : FS) (root : String) : List (String × String) :=
  fs.files.filterMap fun e =>
    if underRoot root e.dir then some (e.dir, e.name) else none

/-- Function `main` from `main.py`: raise `NotADirectoryError` unless the root is
a directory, then walk the tree and dispatch every file. -/
def main (platform : String) (ff : String → String → Bool × ℤ)
    (fs : FS) (main_folder_path : String) (a : Args) :
    FS × List Event × Option PyError :=
  if ¬ fs.isDir main_folder_path then
    (fs, [], some (.notADirectoryError "Path is not a directory."))
  else walkFiles platform ff a (snapshot fs main_folder_path) fs

/-- Post-run invariant of the walk: every file under the root that the
dispatcher would consider (allowed extension, untagged stem) already has
its output sibling on disk. -/
def Good (root : String) (fs : FS) : Prop :=
  ∀ e ∈ fs.files, underRoot root e.dir = true →
    allowed_extensions.contains (extLowerOf e.name) = true →
    taggedStem e.name = false →
    fs.isFile e.dir (new_name e.name) = true

/-- Mid-run invariant of the walk: every file under the root that the
dispatcher would consider either has its output already or is still in
the list of entries waiting to be processed. -/
def Pending (root : String) (fs : FS) (entries : List (String × String)) : Prop :=
  ∀ e ∈ fs.files, underRoot root e.dir = true →
    allowed_extensions.contains (extLowerOf e.name) = true →
    taggedStem e.name = false →
    (fs.isFile e.dir (new_name e.name) = true ∨ (e.dir, e.name) ∈ entries)

/-- Whether `os.path.splitext` finds no extension in `cs`: either there
is no dot at all, or every character before the last dot is itself a
dot. -/
def noExt (cs : List Char) : Bool :=
  match cs.reverse.dropWhile (fun c => c != '.') with
  | [] => true
  | _ :: t => !(t.any fun c => c != '.')

/-- Euclidean division depends only on the rational value of the
fraction. -/
theorem ediv_scale {a b c d : ℤ} (hb : 0 < b) (hd : 0 < d)
    (h : a * d = c * b) : a / b = c / d := by
  have key : ∀ {x y u v : ℤ}, 0 < y → 0 < v → x * v = u * y → x / y ≤ u / v := by
    intro x y u v hy hv hxv
    rw [Int.le_ediv_iff_mul_le hv]
    have h1 : y * (x / y) ≤ x := by
      have := Int.ediv_add_emod x y
      have := Int.emod_nonneg x hy.ne'
      omega
    have h2 : y * (x / y) * v ≤ x * v := by
      exact mul_le_mul_of_nonneg_right h1 hv.le
    rw [hxv] at h2
    have h3 : x / y * v * y ≤ u * y := by nlinarith
    exact le_of_mul_le_mul_right h3 hy
  exact le_antisymm (key hb hd h) (key hd hb h.symm)

/-- Rounding `pyRoundAt` depends only on the rational value of the fraction. -/
theorem pyRoundAt_scale {a b c d : ℤ} (hb : 0 < b) (hd : 0 < d)
    (h : a * d = c * b) : pyRoundAt a b = pyRoundAt c d := by
  have hf : a.fdiv b = c.fdiv d := by
    rw [Int.fdiv_eq_ediv _ hb.le, Int.fdiv_eq_ediv _ hd.le]
    exact ediv_scale hb hd h
  set f := c.fdiv d with hfd
  have hcross : (2 * (a - f * b)) * d = (2 * (c - f * d)) * b := by nlinarith [h]
  have h1 : (2 * (a - f * b) < b) ↔ (2 * (c - f * d) < d) := by
    constructor
    · intro hlt
      have h' := mul_lt_mul_of_pos_right hlt hd
      rw [hcross, mul_comm b d] at h'
      exact lt_of_mul_lt_mul_right h' hb.le
    · intro hlt
      have h' := mul_lt_mul_of_pos_right hlt hb
      rw [← hcross, mul_comm d b] at h'
      exact lt_of_mul_lt_mul_right h' hd.le
  have h2 : (b < 2 * (a - f * b)) ↔ (d < 2 * (c - f * d)) := by
    constructor
    · intro hlt
      have h' := mul_lt_mul_of_pos_right hlt hd
      rw [hcross] at h'
      rw [mul_comm b d] at h'
      exact lt_of_mul_lt_mul_right h' hb.le
    · intro hlt
      have h' := mul_lt_mul_of_pos_right hlt hb
      rw [← hcross] at h'
      rw [mul_comm d b] at h'
      exact lt_of_mul_lt_mul_right h' hd.le
  simp only [pyRoundAt, hf, ← hfd, h1, h2]

/-- Cross multiplication between a rational quotient of integers and its
normalized numerator and denominator. -/
theorem num_den_cross {a b : ℤ} (hb : 0 < b) :
    ((a : ℚ) / (b : ℚ)).num * b = a * (((a : ℚ) / (b : ℚ)).den : ℤ) := by
  set q : ℚ := (a : ℚ) / (b : ℚ) with hqdef
  have hbq : (b : ℚ) ≠ 0 := by
    have : (0 : ℚ) < (b : ℚ) := by exact_mod_cast hb
    exact this.ne'
  have hdq : ((q.den : ℚ)) ≠ 0 := by exact_mod_cast q.den_ne_zero
  have hval : q * (b : ℚ) = (a : ℚ) := by
    rw [hqdef]; exact div_mul_cancel₀ _ hbq
  have hnum : (q.num : ℚ) = q * (q.den : ℚ) := by
    have h0 := Rat.num_div_den q
    calc (q.num : ℚ) = (q.num : ℚ) / (q.den : ℚ) * (q.den : ℚ) :=
          (div_mul_cancel₀ _ hdq).symm
      _ = q * (q.den : ℚ) := by rw [h0]
  have hcrossQ : (q.num : ℚ) * (b : ℚ) = (a : ℚ) * (q.den : ℚ) := by
    calc (q.num : ℚ) * (b : ℚ) = q * (q.den : ℚ) * (b : ℚ) := by rw [hnum]
      _ = q * (b : ℚ) * (q.den : ℚ) := by ring
      _ = (a : ℚ) * (q.den : ℚ) := by rw [hval]
  exact_mod_cast hcrossQ

/-- The integer-pair rounding routine agrees with rounding the rational
value. -/
theorem pyRound_div_eq {a b : ℤ} (hb : 0 < b) :
    pyRound ((a : ℚ) / (b : ℚ)) = pyRoundAt a b := by
  have hden : (0 : ℤ) < ((((a : ℚ) / (b : ℚ)).den : ℤ)) :=
    Int.natCast_pos.mpr ((a : ℚ) / (b : ℚ)).pos
  exact pyRoundAt_scale hden hb (num_den_cross hb)

/-- The integer-pair `.2f` routine agrees with formatting the rational
value. -/
theorem fmt2_div_eq {a b : ℤ} (hb : 0 < b) :
    formatFixed2 ((a : ℚ) / (b : ℚ)) = fmt2 a b := by
  have hden : (0 : ℤ) < ((((a : ℚ) / (b : ℚ)).den : ℤ)) :=
    Int.natCast_pos.mpr ((a : ℚ) / (b : ℚ)).pos
  have hm : pyRoundAt (((a : ℚ) / (b : ℚ)).num * 100) ((((a : ℚ) / (b : ℚ)).den : ℤ))
      = pyRoundAt (a * 100) b := by
    refine pyRoundAt_scale hden hb ?_
    nlinarith [@num_den_cross a b hb]
  simp only [formatFixed2, fmt2, hm]

/-- A pattern is a prefix of itself followed by anything. -/
theorem startsWithL_self_append (pat ys : List Char) :
    startsWithL pat (pat ++ ys) = true := by
  induction pat with
  | nil => rfl
  | cons c cs ih => simp [startsWithL, ih]

/-- A prefix occurrence is a substring occurrence. -/
theorem containsSub_of_startsWith {pat l : List Char}
    (h : startsWithL pat l = true) : containsSub pat l = true := by
  cases l with
  | nil => simpa [containsSub] using h
  | cons c r => simp [containsSub, h]

/-- Substring containment survives extending on the left by one char. -/
theorem containsSub_cons {pat l : List Char} (c : Char)
    (h : containsSub pat l = true) : containsSub pat (c :: l) = true := by
  simp [containsSub, h]

/-- Substring containment survives extending on the left. -/
theorem containsSub_append_left {pat l : List Char} (xs : List Char)
    (h : containsSub pat l = true) : containsSub pat (xs ++ l) = true := by
  induction xs with
  | nil => simpa using h
  | cons c cs ih => simpa [List.cons_append] using containsSub_cons c ih

/-- The pattern `pat` occurs in `xs ++ pat ++ ys`. -/
theorem containsSub_mid (xs pat ys : List Char) :
    containsSub pat (xs ++ pat ++ ys) = true := by
  rw [List.append_assoc]
  exact containsSub_append_left xs
    (containsSub_of_startsWith (startsWithL_self_append pat ys))

/-- The pattern `pat` occurs in `xs ++ pat`. -/
theorem containsSub_append_self (xs pat : List Char) :
    containsSub pat (xs ++ pat) = true := by
  have h := containsSub_mid xs pat []
  simpa using h

/-- A `takeWhile` walks through a fully satisfying prefix. -/
theorem takeWhile_append_all {p : Char → Bool} {l1 : List Char}
    (l2 : List Char) (h : ∀ c ∈ l1, p c = true) :
    (l1 ++ l2).takeWhile p = l1 ++ l2.takeWhile p := by
  induction l1 with
  | nil => simp
  | cons c cs ih =>
    have hc := h c (by simp)
    simp only [List.cons_append, List.takeWhile_cons, hc, if_true]
    rw [ih (fun x hx => h x (by simp [hx]))]

/-- A `dropWhile` drops a fully satisfying prefix. -/
theorem dropWhile_append_all {p : Char → Bool} {l1 : List Char}
    (l2 : List Char) (h : ∀ c ∈ l1, p c = true) :
    (l1 ++ l2).dropWhile p = l2.dropWhile p := by
  induction l1 with
  | nil => simp
  | cons c cs ih =>
    have hc := h c (by simp)
    simp only [List.cons_append, List.dropWhile_cons, hc, if_true]
    exact ih (fun x hx => h x (by simp [hx]))

/-- The head of a non-empty `dropWhile` fails the predicate. -/
theorem dropWhile_head_false {p : Char → Bool} :
    ∀ (l : List Char) {b : Char} {t : List Char},
      l.dropWhile p = b :: t → p b = false := by
  intro l
  induction l with
  | nil => intro b t h; simp [List.dropWhile] at h
  | cons x xs ih =>
    intro b t h
    by_cases hp : p x = true
    · rw [List.dropWhile_cons, if_pos hp] at h
      exact ih h
    · rw [List.dropWhile_cons, if_neg hp] at h
      cases h
      exact Bool.eq_false_iff.mpr hp

/-- Unfolding equation for `splitextList`, with the let bindings
expanded. -/
theorem splitextList_eq (cs : List Char) :
    splitextList cs
      = match cs.reverse.dropWhile (fun c => c != '.') with
        | [] => (cs, [])
        | _ :: stem_rev =>
          if stem_rev.any (fun c => c != '.') then
            (stem_rev.reverse,
             '.' :: (cs.reverse.takeWhile (fun c => c != '.')).reverse)
          else (cs, []) := rfl

/-- When no extension is found, `splitextList` returns the whole name
and an empty extension. -/
theorem splitextList_of_noExt {cs : List Char} (h : noExt cs = true) :
    splitextList cs = (cs, []) := by
  unfold noExt at h
  rw [splitextList_eq]
  cases hdw : cs.reverse.dropWhile (fun c => c != '.') with
  | nil => rfl
  | cons b t =>
    rw [hdw] at h
    simp only at h
    simp only [Bool.not_eq_true'] at h
    simp [h]

/-- Conversely, an empty extension means no extension was found. -/
theorem noExt_of_splitextList {cs s : List Char}
    (h : splitextList cs = (s, [])) : s = cs ∧ noExt cs = true := by
  rw [splitextList_eq] at h
  unfold noExt
  cases hdw : cs.reverse.dropWhile (fun c => c != '.') with
  | nil =>
    rw [hdw] at h
    simp only [Prod.mk.injEq] at h
    exact ⟨h.1.symm, rfl⟩
  | cons b t =>
    rw [hdw] at h
    simp only at h
    by_cases ha : t.any (fun c => c != '.') = true
    · rw [if_pos ha] at h
      simp only [Prod.mk.injEq] at h
      exact absurd h.2 (by simp)
    · rw [if_neg ha] at h
      simp only [Prod.mk.injEq] at h
      refine ⟨h.1.symm, ?_⟩
      simp only [Bool.not_eq_true] at ha
      simp [ha]

/-- Appending dot-free characters cannot create an extension. -/
theorem noExt_append {cs xs : List Char} (hxs : ∀ c ∈ xs, (c != '.') = true)
    (h : noExt cs = true) : noExt (cs ++ xs) = true := by
  unfold noExt at h ⊢
  rw [List.reverse_append]
  rw [dropWhile_append_all cs.reverse (fun c hc => hxs c (List.mem_reverse.mp hc))]
  exact h

/-- Splitting: `splitextList` applied to a name of the form `stem ++ "." ++ ext`
with a dot-free `ext` and a stem containing a non-dot splits exactly at
that dot. -/
theorem splitextList_build (stem ext : List Char)
    (hstem : stem.any (fun c => c != '.') = true)
    (hext : ∀ c ∈ ext, (c != '.') = true) :
    splitextList (stem ++ '.' :: ext) = (stem, '.' :: ext) := by
  rw [splitextList_eq]
  have h1 : (stem ++ '.' :: ext).reverse = ext.reverse ++ '.' :: stem.reverse := by
    simp [List.reverse_append]
  rw [h1]
  have hextrev : ∀ c ∈ ext.reverse, (c != '.') = true :=
    fun c hc => hext c (List.mem_reverse.mp hc)
  rw [takeWhile_append_all _ hextrev, dropWhile_append_all _ hextrev]
  rw [List.takeWhile_cons, List.dropWhile_cons]
  simp only [bne_self_eq_false, Bool.false_eq_true, if_false]
  have hany : stem.reverse.any (fun c => c != '.') = true := by
    rw [List.any_reverse]; exact hstem
  rw [if_pos hany]
  simp

/-- What `splitextList` returning a real extension tells us: the
extension tail is dot-free and the stem has a non-dot character. -/
theorem splitextList_ext_spec {cs s e' : List Char}
    (h : splitextList cs = (s, '.' :: e')) :
    (∀ c ∈ e', (c != '.') = true) ∧ s.any (fun c => c != '.') = true := by
  rw [splitextList_eq] at h
  cases hdw : cs.reverse.dropWhile (fun c => c != '.') with
  | nil =>
    rw [hdw] at h
    simp only [Prod.mk.injEq] at h
    exact absurd h.2 (by simp)
  | cons b t =>
    rw [hdw] at h
    simp only at h
    by_cases ha : t.any (fun c => c != '.') = true
    · rw [if_pos ha] at h
      simp only [Prod.mk.injEq, List.cons.injEq] at h
      obtain ⟨hs, _, he⟩ := h
      constructor
      · intro c hc
        rw [← he] at hc
        exact @List.mem_takeWhile_imp Char (fun x => x != '.') cs.reverse c
          (List.mem_reverse.mp hc)
      · rw [← hs, List.any_reverse]
        exact ha
    · rw [if_neg ha] at h
      simp only [Prod.mk.injEq] at h
      exact absurd h.2 (by simp)

/-- Splitting off a real extension, then inserting dot-free characters
with at least one non-dot right before the dot, splits at the same
dot. -/
theorem splitextList_insert {cs s : List Char} {e : List Char} {ms : List Char}
    (h : splitextList cs = (s, e)) (hne : e ≠ []) :
    splitextList (s ++ ms ++ e) = (s ++ ms, e) := by
  cases e with
  | nil => exact absurd rfl hne
  | cons c e' =>
    have hc : c = '.' := by
      rw [splitextList_eq] at h
      cases hdw : cs.reverse.dropWhile (fun x => x != '.') with
      | nil =>
        rw [hdw] at h
        simp only [Prod.mk.injEq] at h
        exact absurd h.2 (by simp)
      | cons b t =>
        rw [hdw] at h
        simp only at h
        by_cases ha : t.any (fun x => x != '.') = true
        · rw [if_pos ha] at h
          simp only [Prod.mk.injEq, List.cons.injEq] at h
          exact h.2.1.symm
        · rw [if_neg ha] at h
          simp only [Prod.mk.injEq] at h
          exact absurd h.2 (by simp)
    subst hc
    obtain ⟨hext, hstem⟩ := splitextList_ext_spec h
    have hstem2 : (s ++ ms).any (fun x => x != '.') = true := by
      rw [List.any_append, hstem]
      rfl
    exact splitextList_build (s ++ ms) e' hstem2 hext

/-- The stem of `new_file_name = file_name + converted_tag + extension`
always contains the converted tag: the walker never re-dispatches a file
it has produced. -/
theorem taggedStem_new_name (file : String) :
    taggedStem (new_name file) = true := by
  unfold taggedStem new_name
  have htag : ∀ c ∈ converted_tag.toList, (c != '.') = true := by decide
  obtain ⟨⟨s, e⟩, hse⟩ : ∃ p, splitextList file.toList = p := ⟨_, rfl⟩
  cases e with
  | nil =>
    obtain ⟨hs, hnoext⟩ := noExt_of_splitextList hse
    rw [← hs] at hnoext
    have h1 : noExt (s ++ converted_tag.toList) = true := noExt_append htag hnoext
    have h2 : splitextList ((String.mk (s ++ converted_tag.toList ++ [])).toList)
        = (s ++ converted_tag.toList, []) := by
      show splitextList (s ++ converted_tag.toList ++ []) = _
      rw [List.append_nil]
      exact splitextList_of_noExt h1
    simp only [hse]
    rw [h2]
    exact containsSub_append_self s converted_tag.toList
  | cons c e' =>
    have h2 : splitextList ((String.mk (s ++ converted_tag.toList ++ (c :: e'))).toList)
        = (s ++ converted_tag.toList, c :: e') := by
      show splitextList (s ++ converted_tag.toList ++ (c :: e')) = _
      exact splitextList_insert hse (List.cons_ne_nil _ _)
    simp only [hse]
    rw [h2]
    exact containsSub_append_self s converted_tag.toList

/-- Two basenames with different tag status are different names. -/
theorem ne_of_taggedStem_ne {m n : String} (hm : taggedStem m = true)
    (hn : taggedStem n = false) : m ≠ n := by
  intro h
  rw [h] at hm
  rw [hm] at hn
  exact Bool.noConfusion hn

/-- A freshly created file exists. -/
theorem isFile_addFile_self (fs : FS) (d n : String) (data : FileData) :
    (fs.addFile d n data).isFile d n = true := by
  simp [FS.isFile, FS.addFile]

/-- Creating a file preserves the existence of every file. -/
theorem isFile_addFile_mono {fs : FS} {d n : String} (d' n' : String)
    (data : FileData) (h : fs.isFile d n = true) :
    (fs.addFile d' n' data).isFile d n = true := by
  simp only [FS.isFile, FS.addFile, List.any_cons, Bool.or_eq_true]
  exact Or.inr h

/-- A removed file no longer exists. -/
theorem isFile_removeFile_self (fs : FS) (d n : String) :
    (fs.removeFile d n).isFile d n = false := by
  simp only [FS.isFile, FS.removeFile]
  rw [Bool.eq_false_iff]
  intro hc
  rw [List.any_eq_true] at hc
  obtain ⟨e, he, hp⟩ := hc
  rw [List.mem_filter] at he
  rw [hp] at he
  have he2 : (true : Bool) = false := by simpa using he.2
  exact Bool.noConfusion he2

/-- Removing one path preserves the existence of every other path. -/
theorem isFile_removeFile_of_ne {fs : FS} {rd rn d n : String}
    (h : fs.isFile d n = true) (hne : ¬(d = rd ∧ n = rn)) :
    (fs.removeFile rd rn).isFile d n = true := by
  simp only [FS.isFile, List.any_eq_true, Bool.and_eq_true, beq_iff_eq] at h ⊢
  obtain ⟨e, he, hd, hn⟩ := h
  refine ⟨e, ?_, hd, hn⟩
  simp only [FS.removeFile, List.mem_filter]
  refine ⟨he, ?_⟩
  subst hd hn
  rw [Bool.not_eq_eq_eq_not, Bool.not_true, Bool.and_eq_false_iff]
  rcases not_and_or.mp hne with h' | h'
  · exact Or.inl (by simpa using h')
  · exact Or.inr (by simpa using h')

/-- A membership view of the files after a removal. -/
theorem mem_removeFile {fs : FS} {rd rn : String} {e : FSFile}
    (h : e ∈ (fs.removeFile rd rn).files) : e ∈ fs.files :=
  (List.mem_filter.mp h).1

/-- A membership view of the files after a creation. -/
theorem mem_addFile {fs : FS} {d n : String} {data : FileData} {e : FSFile}
    (h : e ∈ (fs.addFile d n data).files) :
    e = ⟨d, n, data⟩ ∨ e ∈ fs.files := List.mem_cons.mp h

/-- The newest version of a path is the one just written. -/
theorem getData_addFile_self (fs : FS) (d n : String) (data : FileData) :
    (fs.addFile d n data).getData d n = some data := by
  simp [FS.getData, FS.addFile, List.find?_cons]

/-- Search `find?` commutes with a filter that keeps everything the search
condition accepts. -/
theorem find?_filter_of_imp {α : Type} (l : List α) (p q : α → Bool)
    (h : ∀ e, q e = true → p e = true) :
    (l.filter p).find? q = l.find? q := by
  induction l with
  | nil => rfl
  | cons x xs ih =>
    by_cases hq : q x = true
    · rw [List.filter_cons, if_pos (h x hq)]
      rw [List.find?_cons_of_pos _ hq, List.find?_cons_of_pos _ hq]
    · have hq' : q x = false := by simpa using hq
      rw [List.filter_cons]
      by_cases hp : p x = true
      · rw [if_pos hp, List.find?_cons_of_neg _ hq, List.find?_cons_of_neg _ hq]
        exact ih
      · rw [if_neg hp, List.find?_cons_of_neg _ hq]
        exact ih

/-- Removing one path does not change the content seen at another. -/
theorem getData_removeFile_of_ne {fs : FS} {rd rn d n : String}
    (hne : ¬(d = rd ∧ n = rn)) :
    (fs.removeFile rd rn).getData d n = fs.getData d n := by
  simp only [FS.getData, FS.removeFile]
  rw [find?_filter_of_imp]
  intro e hq
  simp only [Bool.and_eq_true, beq_iff_eq] at hq
  obtain ⟨hd, hn⟩ := hq
  subst hd hn
  rw [Bool.not_eq_eq_eq_not, Bool.not_true, Bool.and_eq_false_iff]
  rcases not_and_or.mp hne with h' | h'
  · exact Or.inl (by simpa using h')
  · exact Or.inr (by simpa using h')

/-- Creating a file keeps the directory set. -/
theorem dirs_addFile (fs : FS) (d n : String) (data : FileData) :
    (fs.addFile d n data).dirs = fs.dirs := rfl

/-- Removing a file keeps the directory set. -/
theorem dirs_removeFile (fs : FS) (d n : String) :
    (fs.removeFile d n).dirs = fs.dirs := rfl

/-- Unfolding equation for `ffmpeg_convert`. -/
theorem ffmpeg_convert_eq (platform : String) (ff : String → String → Bool × ℤ)
    (fs : FS) (oD oN nD nN : String) (del : Bool) (crf : ℤ) :
    ffmpeg_convert platform ff fs oD oN nD nN del crf
      = match ffmpeg_command fs platform oD oN (joinPath nD nN) crf with
        | .error e => .error e
        | .ok _ =>
          if del then
            .ok ((if (ff (joinPath oD oN) (joinPath nD nN)).1 then
                    fs.addFile nD nN .raw else fs).removeFile oD oN)
          else
            .ok (if (ff (joinPath oD oN) (joinPath nD nN)).1 then
                    fs.addFile nD nN .raw else fs) := rfl

/-- Unfolding equation for `image_resize`. -/
theorem image_resize_eq (fs : FS) (oD oN nD nN : String) (t : ℕ) (del : Bool)
    (q : ℕ) :
    image_resize fs oD oN nD nN t del q
      = match fs.getData oD oN with
        | none => .error .imageOpenError
        | some .raw => .error .imageOpenError
        | some (.img w h ex) =>
          if w = 0 then .error .zeroDivisionError
          else match ex with
            | none => .error .keyError
            | some exd =>
              if del then
                .ok ((fs.addFile nD nN (.img (image_resize_dims w h t).1
                  (image_resize_dims w h t).2 (some exd))).removeFile oD oN)
              else
                .ok (fs.addFile nD nN (.img (image_resize_dims w h t).1
                  (image_resize_dims w h t).2 (some exd))) := rfl

/-- Unfolding equation for `processFile`. -/
theorem processFile_eq (platform : String) (ff : String → String → Bool × ℤ)
    (a : Args) (fs : FS) (root file : String) :
    processFile platform ff a fs root file
      = if ¬ allowed_extensions.contains (extLowerOf file) then .ok (fs, [])
        else if taggedStem file then .ok (fs, [])
        else if fs.isFile root (new_name file) then .ok (fs, [])
        else if video_extensions.contains (extLowerOf file) then
          match ffmpeg_convert platform ff fs root file root (new_name file)
              a.delete_original a.video_crf with
          | .error e => .error e
          | .ok fs' => .ok (fs', [.video root file (new_name file)])
        else if image_extensions.contains (extLowerOf file) then
          match image_resize fs root file root (new_name file)
              a.new_image_width a.delete_original a.image_quality with
          | .error e => .error e
          | .ok fs' => .ok (fs', [.image root file (new_name file)])
        else .ok (fs, []) := rfl

/-- Unfolding equation for `walkFiles` on an empty enumeration. -/
theorem walkFiles_nil (platform : String) (ff : String → String → Bool × ℤ)
    (a : Args) (fs : FS) : walkFiles platform ff a [] fs = (fs, [], none) := rfl

/-- Unfolding equation for `walkFiles` on a non-empty enumeration. -/
theorem walkFiles_cons (platform : String) (ff : String → String → Bool × ℤ)
    (a : Args) (root file : String) (rest : List (String × String)) (fs : FS) :
    walkFiles platform ff a ((root, file) :: rest) fs
      = match processFile platform ff a fs root file with
        | .error e => (fs, [], some e)
        | .ok (fs1, ev1) =>
          ((walkFiles platform ff a rest fs1).1,
           ev1 ++ (walkFiles platform ff a rest fs1).2.1,
           (walkFiles platform ff a rest fs1).2.2) := rfl

/-- Unfolding equation for `main`. -/
theorem main_eq (platform : String) (ff : String → String → Bool × ℤ)
    (fs : FS) (root : String) (a : Args) :
    main platform ff fs root a
      = if ¬ fs.isDir root then
          (fs, [], some (.notADirectoryError "Path is not a directory."))
        else walkFiles platform ff a (snapshot fs root) fs := rfl

/-- The only failures of `ffmpeg_command` are the missing-input raise and
the unbound `ffmpeg_path`. -/
theorem ffmpeg_command_error_classify {fs : FS} {platform iD iN out : String}
    {crf : ℤ} {e : PyError}
    (h : ffmpeg_command fs platform iD iN out crf = .error e) :
    (∃ m, e = .fileExistsError m) ∨ e = .unboundLocalError := by
  unfold ffmpeg_command at h
  by_cases hin : fs.isFile iD iN = true
  · rw [if_neg (by simp [hin])] at h
    cases hp : ffmpeg_path_for platform with
    | none => rw [hp] at h; simp only [Except.error.injEq] at h; exact Or.inr h.symm
    | some p => rw [hp] at h; simp at h
  · rw [if_pos (by simpa using hin)] at h
    simp only [Except.error.injEq] at h
    exact Or.inl ⟨_, h.symm⟩

/-- When the input exists and the platform resolves, `ffmpeg_command`
succeeds. -/
theorem ffmpeg_command_ok {fs : FS} {platform p iD iN : String}
    (out : String) (crf : ℤ) (hin : fs.isFile iD iN = true)
    (hp : ffmpeg_path_for platform = some p) :
    ffmpeg_command fs platform iD iN out crf
      = .ok ([p, "-i", quote (joinPath iD iN)]
        ++ ["-c:v", "libx264"]
        ++ ["-preset:v", "ultrafast"]
        ++ ["-crf", toString crf]
        ++ ["-c:a", "aac"]
        ++ ["-b:a", "320k"]
        ++ ["-threads", "0"]
        ++ ["-movflags", "+faststart"]
        ++ [quote out]) := by
  unfold ffmpeg_command
  rw [if_neg (by simp [hin]), hp]

/-- What a successful `ffmpeg_convert` run with an output-producing
external process does to the filesystem. -/
theorem ffmpeg_convert_ok_shape {platform : String}
    {ff : String → String → Bool × ℤ} {fs : FS} {oD oN nD nN : String}
    {del : Bool} {crf : ℤ} {fs' : FS}
    (hff : ∀ x y, (ff x y).1 = true)
    (h : ffmpeg_convert platform ff fs oD oN nD nN del crf = .ok fs') :
    fs.isFile oD oN = true ∧
    fs' = (if del then (fs.addFile nD nN .raw).removeFile oD oN
           else fs.addFile nD nN .raw) := by
  rw [ffmpeg_convert_eq] at h
  cases hcmd : ffmpeg_command fs platform oD oN (joinPath nD nN) crf with
  | error e => rw [hcmd] at h; simp at h
  | ok cmd =>
    have hin : fs.isFile oD oN = true := by
      by_contra hin
      have hin' : fs.isFile oD oN = false := by simpa using hin
      unfold ffmpeg_command at hcmd
      rw [if_pos (by simp [hin'])] at hcmd
      simp at hcmd
    rw [hcmd] at h
    simp only [hff, if_true] at h
    refine ⟨hin, ?_⟩
    split at h
    · rw [if_pos (by assumption)]
      simp only [Except.ok.injEq] at h
      exact h.symm
    · rw [if_neg (by assumption)]
      simp only [Except.ok.injEq] at h
      exact h.symm

/-- A successful `ffmpeg_convert` run does not change the directory
set. -/
theorem ffmpeg_convert_dirs {platform : String}
    {ff : String → String → Bool × ℤ} {fs : FS} {oD oN nD nN : String}
    {del : Bool} {crf : ℤ} {fs' : FS}
    (h : ffmpeg_convert platform ff fs oD oN nD nN del crf = .ok fs') :
    fs'.dirs = fs.dirs := by
  rw [ffmpeg_convert_eq] at h
  cases hcmd : ffmpeg_command fs platform oD oN (joinPath nD nN) crf with
  | error e => rw [hcmd] at h; simp at h
  | ok cmd =>
    rw [hcmd] at h
    simp only [] at h
    split at h <;> split at h <;>
      (simp only [Except.ok.injEq] at h; rw [← h]) <;> rfl

/-- The only failures of `ffmpeg_convert` are those of
`ffmpeg_command`. -/
theorem ffmpeg_convert_error_classify {platform : String}
    {ff : String → String → Bool × ℤ} {fs : FS} {oD oN nD nN : String}
    {del : Bool} {crf : ℤ} {e : PyError}
    (h : ffmpeg_convert platform ff fs oD oN nD nN del crf = .error e) :
    (∃ m, e = .fileExistsError m) ∨ e = .unboundLocalError := by
  rw [ffmpeg_convert_eq] at h
  cases hcmd : ffmpeg_command fs platform oD oN (joinPath nD nN) crf with
  | error e' =>
    rw [hcmd] at h
    simp only [Except.error.injEq] at h
    rw [← h]
    exact ffmpeg_command_error_classify hcmd
  | ok cmd =>
    rw [hcmd] at h
    simp only [] at h
    cases del with
    | true => simp at h
    | false => simp at h

/-- What a successful `image_resize` run does to the filesystem: the
resized image is written with the source's EXIF data carried over. -/
theorem image_resize_ok_shape {fs : FS} {oD oN nD nN : String} {t : ℕ}
    {del : Bool} {q : ℕ} {fs' : FS}
    (h : image_resize fs oD oN nD nN t del q = .ok fs') :
    ∃ data, fs' = (if del then (fs.addFile nD nN data).removeFile oD oN
                   else fs.addFile nD nN data) := by
  rw [image_resize_eq] at h
  cases hgd : fs.getData oD oN with
  | none => rw [hgd] at h; simp at h
  | some data =>
    rw [hgd] at h
    cases data with
    | raw => simp at h
    | img w h0 ex =>
      simp only [] at h
      by_cases hw : w = 0
      · rw [if_pos hw] at h; simp at h
      · rw [if_neg hw] at h
        cases ex with
        | none => simp at h
        | some exd =>
          simp only [] at h
          split at h
          · simp only [Except.ok.injEq] at h
            refine ⟨FileData.img (image_resize_dims w h0 t).1
              (image_resize_dims w h0 t).2 (some exd), ?_⟩
            rw [if_pos (by assumption)]
            exact h.symm
          · simp only [Except.ok.injEq] at h
            refine ⟨FileData.img (image_resize_dims w h0 t).1
              (image_resize_dims w h0 t).2 (some exd), ?_⟩
            rw [if_neg (by assumption)]
            exact h.symm

/-- A successful `image_resize` run does not change the directory
set. -/
theorem image_resize_dirs {fs : FS} {oD oN nD nN : String} {t : ℕ}
    {del : Bool} {q : ℕ} {fs' : FS}
    (h : image_resize fs oD oN nD nN t del q = .ok fs') :
    fs'.dirs = fs.dirs := by
  obtain ⟨data, hshape⟩ := image_resize_ok_shape h
  rw [hshape]
  split <;> rfl

/-- The only failures of `image_resize` are the open failure, the
missing-EXIF `KeyError` and the zero-width `ZeroDivisionError`. -/
theorem image_resize_error_classify {fs : FS} {oD oN nD nN : String} {t : ℕ}
    {del : Bool} {q : ℕ} {e : PyError}
    (h : image_resize fs oD oN nD nN t del q = .error e) :
    e = .imageOpenError ∨ e = .keyError ∨ e = .zeroDivisionError := by
  rw [image_resize_eq] at h
  cases hgd : fs.getData oD oN with
  | none =>
    rw [hgd] at h
    simp only [Except.error.injEq] at h
    exact Or.inl h.symm
  | some data =>
    rw [hgd] at h
    cases data with
    | raw =>
      simp only [Except.error.injEq] at h
      exact Or.inl h.symm
    | img w h0 ex =>
      simp only [] at h
      by_cases hw : w = 0
      · rw [if_pos hw] at h
        simp only [Except.error.injEq] at h
        exact Or.inr (Or.inr h.symm)
      · rw [if_neg hw] at h
        cases ex with
        | none =>
          simp only [Except.error.injEq] at h
          exact Or.inr (Or.inl h.symm)
        | some exd =>
          simp only [] at h
          split at h <;> simp at h

/-- An extension allowed by the dispatcher is a video extension or an
image extension. -/
theorem contains_split {x : String}
    (h : allowed_extensions.contains x = true) :
    video_extensions.contains x = true ∨ image_extensions.contains x = true := by
  simp only [allowed_extensions, List.contains, List.elem_iff,
    List.mem_append] at h ⊢
  exact h

/-- Case analysis on a successful `processFile` step: either the file
was skipped (disallowed extension, tagged stem, or existing output) and
nothing happened, or it was dispatched, one converter ran, the output
sibling was written and the original was removed iff the delete flag is
set. -/
theorem processFile_ok_shape {platform : String}
    {ff : String → String → Bool × ℤ} {a : Args} {fs : FS}
    {root file : String} {fs' : FS} {evs : List Event}
    (hff : ∀ x y, (ff x y).1 = true)
    (h : processFile platform ff a fs root file = .ok (fs', evs)) :
    (fs' = fs ∧ evs = [] ∧
      (allowed_extensions.contains (extLowerOf file) = false ∨
       taggedStem file = true ∨ fs.isFile root (new_name file) = true)) ∨
    (taggedStem file = false ∧ fs.isFile root (new_name file) = false ∧
     (evs = [Event.video root file (new_name file)] ∨
      evs = [Event.image root file (new_name file)]) ∧
     ∃ data, fs' = (if a.delete_original then
         (fs.addFile root (new_name file) data).removeFile root file
       else fs.addFile root (new_name file) data)) := by
  rw [processFile_eq] at h
  by_cases hallow : allowed_extensions.contains (extLowerOf file) = true
  · rw [if_neg (not_not_intro hallow)] at h
    by_cases htag : taggedStem file = true
    · rw [if_pos htag] at h
      simp only [Except.ok.injEq, Prod.mk.injEq] at h
      exact Or.inl ⟨h.1.symm, h.2.symm, Or.inr (Or.inl htag)⟩
    · have htag' : taggedStem file = false := by simpa using htag
      rw [if_neg (by simp [htag'])] at h
      by_cases hout : fs.isFile root (new_name file) = true
      · rw [if_pos hout] at h
        simp only [Except.ok.injEq, Prod.mk.injEq] at h
        exact Or.inl ⟨h.1.symm, h.2.symm, Or.inr (Or.inr hout)⟩
      · have hout' : fs.isFile root (new_name file) = false := by simpa using hout
        rw [if_neg (by simp [hout'])] at h
        by_cases hvid : video_extensions.contains (extLowerOf file) = true
        · rw [if_pos hvid] at h
          cases hconv : ffmpeg_convert platform ff fs root file root
              (new_name file) a.delete_original a.video_crf with
          | error e => rw [hconv] at h; simp at h
          | ok fs'' =>
            rw [hconv] at h
            simp only [Except.ok.injEq, Prod.mk.injEq] at h
            obtain ⟨h1, h2⟩ := h
            have hshape := ffmpeg_convert_ok_shape hff hconv
            refine Or.inr ⟨htag', hout', Or.inl h2.symm, FileData.raw, ?_⟩
            rw [← h1]
            exact hshape.2
        · rw [if_neg hvid] at h
          by_cases himg : image_extensions.contains (extLowerOf file) = true
          · rw [if_pos himg] at h
            cases hres : image_resize fs root file root (new_name file)
                a.new_image_width a.delete_original a.image_quality with
            | error e => rw [hres] at h; simp at h
            | ok fs'' =>
              rw [hres] at h
              simp only [Except.ok.injEq, Prod.mk.injEq] at h
              obtain ⟨h1, h2⟩ := h
              obtain ⟨data, hshape⟩ := image_resize_ok_shape hres
              refine Or.inr ⟨htag', hout', Or.inr h2.symm, data, ?_⟩
              rw [← h1]
              exact hshape
          · rcases contains_split hallow with hv | hi
            · exact absurd hv hvid
            · exact absurd hi himg
  · rw [if_pos hallow] at h
    simp only [Except.ok.injEq, Prod.mk.injEq] at h
    exact Or.inl ⟨h.1.symm, h.2.symm, Or.inl (by simpa using hallow)⟩

/-- A successful `processFile` step does not change the directory
set. -/
theorem processFile_dirs {platform : String}
    {ff : String → String → Bool × ℤ} {a : Args} {fs : FS}
    {root file : String} {fs' : FS} {evs : List Event}
    (h : processFile platform ff a fs root file = .ok (fs', evs)) :
    fs'.dirs = fs.dirs := by
  rw [processFile_eq] at h
  split at h
  · simp only [Except.ok.injEq, Prod.mk.injEq] at h; rw [← h.1]
  · split at h
    · simp only [Except.ok.injEq, Prod.mk.injEq] at h; rw [← h.1]
    · split at h
      · simp only [Except.ok.injEq, Prod.mk.injEq] at h; rw [← h.1]
      · split at h
        · cases hconv : ffmpeg_convert platform ff fs root file root
              (new_name file) a.delete_original a.video_crf with
          | error e => rw [hconv] at h; simp at h
          | ok fs'' =>
            rw [hconv] at h
            simp only [Except.ok.injEq, Prod.mk.injEq] at h
            rw [← h.1]
            exact ffmpeg_convert_dirs hconv
        · split at h
          · cases hres : image_resize fs root file root (new_name file)
                a.new_image_width a.delete_original a.image_quality with
            | error e => rw [hres] at h; simp at h
            | ok fs'' =>
              rw [hres] at h
              simp only [Except.ok.injEq, Prod.mk.injEq] at h
              rw [← h.1]
              exact image_resize_dirs hres
          · simp only [Except.ok.injEq, Prod.mk.injEq] at h; rw [← h.1]

/-- The errors `processFile` can propagate; in particular it never
raises `NotADirectoryError`, which only `main`'s entry check does. -/
theorem processFile_error_classify {platform : String}
    {ff : String → String → Bool × ℤ} {a : Args} {fs : FS}
    {root file : String} {e : PyError}
    (h : processFile platform ff a fs root file = .error e) :
    (∃ m, e = .fileExistsError m) ∨ e = .unboundLocalError ∨
    e = .imageOpenError ∨ e = .keyError ∨ e = .zeroDivisionError := by
  rw [processFile_eq] at h
  split at h
  · simp at h
  · split at h
    · simp at h
    · split at h
      · simp at h
      · split at h
        · cases hconv : ffmpeg_convert platform ff fs root file root
              (new_name file) a.delete_original a.video_crf with
          | error e' =>
            rw [hconv] at h
            simp only [Except.error.injEq] at h
            rw [← h]
            rcases ffmpeg_convert_error_classify hconv with h' | h'
            · exact Or.inl h'
            · exact Or.inr (Or.inl h')
          | ok fs'' => rw [hconv] at h; simp at h
        · split at h
          · cases hres : image_resize fs root file root (new_name file)
                a.new_image_width a.delete_original a.image_quality with
            | error e' =>
              rw [hres] at h
              simp only [Except.error.injEq] at h
              rw [← h]
              rcases image_resize_error_classify hres with h' | h' | h'
              · exact Or.inr (Or.inr (Or.inl h'))
              · exact Or.inr (Or.inr (Or.inr (Or.inl h')))
              · exact Or.inr (Or.inr (Or.inr (Or.inr h')))
            | ok fs'' => rw [hres] at h; simp at h
          · simp at h

/-- Step `processFile` skips a file whose extension is not allowed, whose
stem carries the tag, or whose output sibling exists. -/
theorem processFile_skip {platform : String}
    {ff : String → String → Bool × ℤ} {a : Args} {fs : FS}
    {root file : String}
    (h : allowed_extensions.contains (extLowerOf file) = false ∨
         taggedStem file = true ∨ fs.isFile root (new_name file) = true) :
    processFile platform ff a fs root file = .ok (fs, []) := by
  rw [processFile_eq]
  by_cases hallow : allowed_extensions.contains (extLowerOf file) = true
  · rw [if_neg (not_not_intro hallow)]
    by_cases htag : taggedStem file = true
    · rw [if_pos htag]
    · have htag' : taggedStem file = false := by simpa using htag
      rw [if_neg (by simp [htag'])]
      rcases h with h' | h' | h'
      · rw [hallow] at h'; exact absurd h' (by simp)
      · exact absurd h' htag
      · rw [if_pos h']
  · rw [if_pos hallow]

/-- The walk never changes the directory set. -/
theorem walk_dirs (platform : String) (ff : String → String → Bool × ℤ)
    (a : Args) : ∀ (entries : List (String × String)) (fs : FS),
    ((walkFiles platform ff a entries fs).1).dirs = fs.dirs := by
  intro entries
  induction entries with
  | nil => intro fs; rw [walkFiles_nil]
  | cons en rest ih =>
    intro fs
    obtain ⟨root, file⟩ := en
    rw [walkFiles_cons]
    cases hp : processFile platform ff a fs root file with
    | error e => rfl
    | ok pr =>
      obtain ⟨fs1, ev1⟩ := pr
      show ((walkFiles platform ff a rest fs1).1).dirs = fs.dirs
      rw [ih fs1]
      exact processFile_dirs hp

/-- Every event a `processFile` step emits names the processed file,
whose stem does not carry the tag. -/
theorem processFile_events {platform : String}
    {ff : String → String → Bool × ℤ} {a : Args} {fs : FS}
    {root file : String} {fs' : FS} {evs : List Event}
    (h : processFile platform ff a fs root file = .ok (fs', evs)) :
    ∀ ev ∈ evs, ev.origName = file ∧ taggedStem file = false := by
  rw [processFile_eq] at h
  by_cases hallow : allowed_extensions.contains (extLowerOf file) = true
  · rw [if_neg (not_not_intro hallow)] at h
    by_cases htag : taggedStem file = true
    · rw [if_pos htag] at h
      simp only [Except.ok.injEq, Prod.mk.injEq] at h
      rw [← h.2]
      intro ev hev
      simp at hev
    · have htag' : taggedStem file = false := by simpa using htag
      rw [if_neg (by simp [htag'])] at h
      split at h
      · simp only [Except.ok.injEq, Prod.mk.injEq] at h
        rw [← h.2]
        intro ev hev
        simp at hev
      · split at h
        · cases hconv : ffmpeg_convert platform ff fs root file root
              (new_name file) a.delete_original a.video_crf with
          | error e => rw [hconv] at h; simp at h
          | ok fs'' =>
            rw [hconv] at h
            simp only [Except.ok.injEq, Prod.mk.injEq] at h
            rw [← h.2]
            intro ev hev
            rw [List.mem_singleton] at hev
            subst hev
            exact ⟨rfl, htag'⟩
        · split at h
          · cases hres : image_resize fs root file root (new_name file)
                a.new_image_width a.delete_original a.image_quality with
            | error e => rw [hres] at h; simp at h
            | ok fs'' =>
              rw [hres] at h
              simp only [Except.ok.injEq, Prod.mk.injEq] at h
              rw [← h.2]
              intro ev hev
              rw [List.mem_singleton] at hev
              subst hev
              exact ⟨rfl, htag'⟩
          · simp only [Except.ok.injEq, Prod.mk.injEq] at h
            rw [← h.2]
            intro ev hev
            simp at hev
  · rw [if_pos hallow] at h
    simp only [Except.ok.injEq, Prod.mk.injEq] at h
    rw [← h.2]
    intro ev hev
    simp at hev

/-- Every event the walk emits names a file whose stem does not carry
the tag. -/
theorem walk_events (platform : String) (ff : String → String → Bool × ℤ)
    (a : Args) : ∀ (entries : List (String × String)) (fs : FS),
    ∀ ev ∈ (walkFiles platform ff a entries fs).2.1,
      taggedStem ev.origName = false := by
  intro entries
  induction entries with
  | nil =>
    intro fs ev hev
    rw [walkFiles_nil] at hev
    simp at hev
  | cons en rest ih =>
    intro fs ev hev
    obtain ⟨root, file⟩ := en
    rw [walkFiles_cons] at hev
    cases hp : processFile platform ff a fs root file with
    | error e => rw [hp] at hev; simp at hev
    | ok pr =>
      obtain ⟨fs1, ev1⟩ := pr
      rw [hp] at hev
      simp only [List.mem_append] at hev
      rcases hev with hev | hev
      · obtain ⟨horig, htag⟩ := processFile_events hp ev hev
        rw [horig]
        exact htag
      · exact ih fs1 ev hev

/-- The walk never fails with `NotADirectoryError`: only `main`'s entry
check produces that error. -/
theorem walk_no_notADir (platform : String) (ff : String → String → Bool × ℤ)
    (a : Args) : ∀ (entries : List (String × String)) (fs : FS) (m : String),
    (walkFiles platform ff a entries fs).2.2
      ≠ some (.notADirectoryError m) := by
  intro entries
  induction entries with
  | nil =>
    intro fs m
    rw [walkFiles_nil]
    simp
  | cons en rest ih =>
    intro fs m
    obtain ⟨root, file⟩ := en
    rw [walkFiles_cons]
    cases hp : processFile platform ff a fs root file with
    | error e =>
      show some e ≠ _
      intro heq
      simp only [Option.some.injEq] at heq
      subst heq
      rcases processFile_error_classify hp with ⟨m', h'⟩ | h' | h' | h' | h' <;>
        exact PyError.noConfusion h'
    | ok pr =>
      obtain ⟨fs1, ev1⟩ := pr
      show (walkFiles platform ff a rest fs1).2.2 ≠ _
      exact ih fs1 m

/-- After an error-free walk whose pending entries covered every
dispatchable file, every dispatchable file under the root has its output
sibling, provided the external encoder always produced its output
(`hff`). -/
theorem walk_estab {platform : String} {ff : String → String → Bool × ℤ}
    {a : Args} {root : String} (hff : ∀ x y, (ff x y).1 = true) :
    ∀ (entries : List (String × String)) (fs fs' : FS) (evs : List Event),
    walkFiles platform ff a entries fs = (fs', evs, none) →
    Pending root fs entries → Good root fs' := by
  intro entries
  induction entries with
  | nil =>
    intro fs fs' evs hw hp
    rw [walkFiles_nil] at hw
    simp only [Prod.mk.injEq] at hw
    rw [← hw.1]
    intro e he hur hal htg
    rcases hp e he hur hal htg with h' | h'
    · exact h'
    · simp at h'
  | cons en rest ih =>
    intro fs fs' evs hw hp
    obtain ⟨r, n⟩ := en
    rw [walkFiles_cons] at hw
    cases hstep : processFile platform ff a fs r n with
    | error e =>
      rw [hstep] at hw
      simp only [Prod.mk.injEq] at hw
      exact absurd hw.2.2 (by simp)
    | ok pr =>
      obtain ⟨fs1, ev1⟩ := pr
      rw [hstep] at hw
      simp only [Prod.mk.injEq] at hw
      obtain ⟨hw1, _, hw3⟩ := hw
      have hrec : walkFiles platform ff a rest fs1
          = ((walkFiles platform ff a rest fs1).1,
             (walkFiles platform ff a rest fs1).2.1, none) := by
        rw [← hw3]
      have hpend : Pending root fs1 rest := by
        rcases processFile_ok_shape hff hstep with
          ⟨hfs, _, hskip⟩ | ⟨htag, hout, _, data, hshape⟩
        · subst hfs
          intro e he hur hal htg
          rcases hp e he hur hal htg with h' | h'
          · exact Or.inl h'
          · rcases List.mem_cons.mp h' with heq | hmem
            · simp only [Prod.mk.injEq] at heq
              obtain ⟨hd, hn⟩ := heq
              rcases hskip with hs | hs | hs
              · rw [hn] at hal
                rw [hal] at hs
                exact absurd hs (by simp)
              · rw [hn] at htg
                rw [htg] at hs
                exact absurd hs (by simp)
              · rw [hd, hn]
                exact Or.inl hs
            · exact Or.inr hmem
        · intro e he hur hal htg
          have hnn : new_name n ≠ n :=
            ne_of_taggedStem_ne (taggedStem_new_name n) htag
          have he' : e = ⟨r, new_name n, data⟩ ∨ e ∈ fs.files := by
            rw [hshape] at he
            by_cases hdel : a.delete_original = true
            · rw [if_pos hdel] at he
              exact mem_addFile (mem_removeFile he)
            · rw [if_neg hdel] at he
              exact mem_addFile he
          rcases he' with rfl | hef
          · exfalso
            have := taggedStem_new_name n
            rw [htg] at this
            exact Bool.noConfusion this
          · have hpersist : ∀ m : String, fs.isFile e.dir m = true →
                taggedStem m = true → fs1.isFile e.dir m = true := by
              intro m hm htagm
              rw [hshape]
              by_cases hdel : a.delete_original = true
              · rw [if_pos hdel]
                refine isFile_removeFile_of_ne
                  (isFile_addFile_mono r (new_name n) data hm) ?_
                rintro ⟨_, hmn⟩
                exact ne_of_taggedStem_ne htagm htag hmn
              · rw [if_neg hdel]
                exact isFile_addFile_mono r (new_name n) data hm
            rcases hp e hef hur hal htg with hout' | hmem
            · exact Or.inl (hpersist (new_name e.name) hout'
                (taggedStem_new_name e.name))
            · rcases List.mem_cons.mp hmem with heq | hmem'
              · simp only [Prod.mk.injEq] at heq
                obtain ⟨hd, hn⟩ := heq
                left
                rw [hd, hn, hshape]
                by_cases hdel : a.delete_original = true
                · rw [if_pos hdel]
                  refine isFile_removeFile_of_ne
                    (isFile_addFile_self _ _ _ _) ?_
                  rintro ⟨_, hmn⟩
                  exact hnn hmn
                · rw [if_neg hdel]
                  exact isFile_addFile_self _ _ _ _
              · exact Or.inr hmem'
      have hgood := ih fs1 (walkFiles platform ff a rest fs1).1
        (walkFiles platform ff a rest fs1).2.1 hrec hpend
      rw [← hw1]
      exact hgood

/-- A walk over entries that all exist under the root of a `Good`
filesystem does nothing: every file is skipped. -/
theorem walk_skip {platform : String} {ff : String → String → Bool × ℤ}
    {a : Args} {root : String} :
    ∀ (entries : List (String × String)) (fs : FS), Good root fs →
    (∀ en ∈ entries, ∃ data, (⟨en.1, en.2, data⟩ : FSFile) ∈ fs.files ∧
       underRoot root en.1 = true) →
    walkFiles platform ff a entries fs = (fs, [], none) := by
  intro entries
  induction entries with
  | nil => intro fs _ _; exact walkFiles_nil platform ff a fs
  | cons en rest ih =>
    intro fs hg hmem
    obtain ⟨r, n⟩ := en
    obtain ⟨data, hin, hur⟩ := hmem (r, n) (by simp)
    have hstep : processFile platform ff a fs r n = .ok (fs, []) := by
      apply processFile_skip
      by_cases hallow : allowed_extensions.contains (extLowerOf n) = true
      · by_cases htag : taggedStem n = true
        · exact Or.inr (Or.inl htag)
        · refine Or.inr (Or.inr ?_)
          exact hg ⟨r, n, data⟩ hin hur hallow (by simpa using htag)
      · exact Or.inl (by simpa using hallow)
    rw [walkFiles_cons, hstep]
    show ((walkFiles platform ff a rest fs).1,
      [] ++ (walkFiles platform ff a rest fs).2.1,
      (walkFiles platform ff a rest fs).2.2) = (fs, [], none)
    rw [ih fs hg (fun en' hen' => hmem en' (by simp [hen']))]
    rfl

/-- Every snapshot entry is backed by a file under the root. -/
theorem snapshot_mem {fs : FS} {root : String} {en : String × String}
    (h : en ∈ snapshot fs root) :
    ∃ data, (⟨en.1, en.2, data⟩ : FSFile) ∈ fs.files ∧
      underRoot root en.1 = true := by
  unfold snapshot at h
  rw [List.mem_filterMap] at h
  obtain ⟨e, he, heq⟩ := h
  by_cases hur : underRoot root e.dir = true
  · rw [if_pos hur] at heq
    simp only [Option.some.injEq] at heq
    subst heq
    exact ⟨e.data, he, hur⟩
  · rw [if_neg hur] at heq
    simp at heq

/-- Every file under the root appears in the snapshot. -/
theorem mem_snapshot_of {fs : FS} {root : String} {e : FSFile}
    (he : e ∈ fs.files) (hur : underRoot root e.dir = true) :
    (e.dir, e.name) ∈ snapshot fs root := by
  unfold snapshot
  rw [List.mem_filterMap]
  exact ⟨e, he, by rw [if_pos hur]⟩

/-- The snapshot establishes the mid-run invariant for the whole run. -/
theorem pending_init (root : String) (fs : FS) :
    Pending root fs (snapshot fs root) := by
  intro e he hur _ _
  exact Or.inr (mem_snapshot_of he hur)

/-- Rounding a non-negative fraction gives a non-negative integer. -/
theorem pyRoundAt_nonneg {a b : ℤ} (ha : 0 ≤ a) (hb : 0 < b) :
    0 ≤ pyRoundAt a b := by
  have hf : 0 ≤ a.fdiv b := by
    rw [Int.fdiv_eq_ediv _ hb.le]
    exact Int.ediv_nonneg ha hb.le
  simp only [pyRoundAt]
  split_ifs <;> omega

/-- Function `readable_size` in terms of the branch index and the unit table. -/
theorem readable_size_fmt (n : ℤ) :
    readable_size n = fmt2 n (1000 ^ sizeExp n) ++ unitName (sizeExp n) := by
  simp only [readable_size, sizeExp]
  split_ifs <;> norm_num [unitName]

/-- A successful `ffmpeg_convert` run, written out. -/
theorem ffmpeg_convert_run {platform p : String}
    {ff : String → String → Bool × ℤ} {fs : FS} {oD oN nD nN : String}
    (del : Bool) (crf : ℤ)
    (hp : ffmpeg_path_for platform = some p) (hin : fs.isFile oD oN = true) :
    ffmpeg_convert platform ff fs oD oN nD nN del crf
      = .ok (if del then
              (if (ff (joinPath oD oN) (joinPath nD nN)).1 then
                 fs.addFile nD nN .raw else fs).removeFile oD oN
             else
              (if (ff (joinPath oD oN) (joinPath nD nN)).1 then
                 fs.addFile nD nN .raw else fs)) := by
  rw [ffmpeg_convert_eq, ffmpeg_command_ok (joinPath nD nN) crf hin hp]
  cases del with
  | true => rfl
  | false => rfl

/-- C1: whenever `ffmpeg_convert` runs on an existing source (on a
platform where the tool path resolves), the source file is deleted
after the external call iff the delete flag is set — regardless of
whether the external process produced the output or what its exit
status was (the oracle `ff` is arbitrary). -/
theorem C1_ffmpeg_convert_delete (platform p : String)
    (ff : String → String → Bool × ℤ) (fs : FS)
    (origDir origName newDir newName : String) (crf : ℤ)
    (hp : ffmpeg_path_for platform = some p)
    (hin : fs.isFile origDir origName = true) :
    (∃ fs', ffmpeg_convert platform ff fs origDir origName newDir newName
        true crf = .ok fs' ∧ fs'.isFile origDir origName = false) ∧
    (∃ fs', ffmpeg_convert platform ff fs origDir origName newDir newName
        false crf = .ok fs' ∧ fs'.isFile origDir origName = true) := by
  constructor
  · exact ⟨_, ffmpeg_convert_run true crf hp hin,
      isFile_removeFile_self _ origDir origName⟩
  · refine ⟨_, ffmpeg_convert_run false crf hp hin, ?_⟩
    by_cases hc : (ff (joinPath origDir origName) (joinPath newDir newName)).1
      = true
    · rw [if_pos hc]
      exact isFile_addFile_mono newDir newName .raw hin
    · rw [if_neg hc]
      exact hin

/-- Witness for C1 at a concrete filesystem, with an external process
that fails and creates nothing (exit status 1). -/
theorem C1_witness :
    (∃ fs', ffmpeg_convert "linux" (fun _ _ => (false, 1))
        ⟨["r"], [⟨"r", "b.mp4", .raw⟩]⟩ "r" "b.mp4" "r" "b_CONVERTED.mp4"
        true 23 = .ok fs' ∧ fs'.isFile "r" "b.mp4" = false) ∧
    (∃ fs', ffmpeg_convert "linux" (fun _ _ => (false, 1))
        ⟨["r"], [⟨"r", "b.mp4", .raw⟩]⟩ "r" "b.mp4" "r" "b_CONVERTED.mp4"
        false 23 = .ok fs' ∧ fs'.isFile "r" "b.mp4" = true) :=
  C1_ffmpeg_convert_delete "linux" "ffmpeg" (fun _ _ => (false, 1))
    ⟨["r"], [⟨"r", "b.mp4", .raw⟩]⟩ "r" "b.mp4" "r" "b_CONVERTED.mp4" 23
    (by decide) (by decide)

/-- C2: the image resizer's dimensions: a positive target width smaller
than the source width is kept and the height becomes
`round(new_width * height / width)`; a target at least the source width
is clamped to the source width (no upscaling); target `0` keeps the
source width. -/
theorem C2_image_resize_dims (w h t : ℕ) (hw : 0 < w) :
    (0 < t → t < w →
      (image_resize_dims w h t).1 = t ∧
      ((image_resize_dims w h t).2 : ℤ)
        = pyRound (((t : ℚ) * (h : ℚ)) / (w : ℚ))) ∧
    (w ≤ t → (image_resize_dims w h t).1 = w) ∧
    (t = 0 → (image_resize_dims w h t).1 = w) := by
  refine ⟨?_, ?_, ?_⟩
  · intro ht htw
    have h1 : image_resize_dims w h t
        = (t, (pyRoundAt ((t : ℤ) * (h : ℤ)) (w : ℤ)).toNat) := by
      simp only [image_resize_dims]
      have e0 : (if t = 0 then w else t) = t := if_neg (by omega)
      rw [e0, if_neg (by omega)]
    rw [h1]
    refine ⟨rfl, ?_⟩
    show ((pyRoundAt ((t : ℤ) * (h : ℤ)) (w : ℤ)).toNat : ℤ) = _
    rw [Int.toNat_of_nonneg (pyRoundAt_nonneg (by positivity)
      (by exact_mod_cast hw))]
    have hbridge := @pyRound_div_eq ((t : ℤ) * (h : ℤ)) (w : ℤ)
      (by exact_mod_cast hw)
    rw [← hbridge]
    congr 1
    push_cast
    ring
  · intro htw
    have ht0 : ¬ t = 0 := by omega
    simp only [image_resize_dims]
    rw [if_neg ht0]
    by_cases hgt : t > w
    · rw [if_pos hgt]
    · have : t = w := by omega
      rw [if_neg hgt, this]
  · intro ht0
    simp only [image_resize_dims]
    rw [if_pos ht0, if_neg (by omega)]

/-- Witness for C2 at the spec's end-to-end example: an 800×600 image
resized to width 400 gets dimensions 400×300. -/
theorem C2_witness :
    ((0 < 400 → 400 < 800 →
      (image_resize_dims 800 600 400).1 = 400 ∧
      ((image_resize_dims 800 600 400).2 : ℤ)
        = pyRound (((400 : ℚ) * (600 : ℚ)) / (800 : ℚ))) ∧
    (800 ≤ 400 → (image_resize_dims 800 600 400).1 = 800) ∧
    (400 = 0 → (image_resize_dims 800 600 400).1 = 800)) ∧
    image_resize_dims 800 600 400 = (400, 300) :=
  ⟨C2_image_resize_dims 800 600 400 (by decide), by decide⟩

/-- C3: for an existing input and any quality value, the built argument
list contains `-crf` immediately followed by the decimal form of the
quality, and ends with the double-quoted destination path. -/
theorem C3_ffmpeg_command_crf (fs : FS) (platform p iD iN out : String)
    (crf : ℤ) (hp : ffmpeg_path_for platform = some p)
    (hin : fs.isFile iD iN = true) (_hlo : 0 ≤ crf) (_hhi : crf ≤ 51) :
    ∃ cmd, ffmpeg_command fs platform iD iN out crf = .ok cmd ∧
      (∃ i, cmd.get? i = some "-crf" ∧ cmd.get? (i + 1) = some (toString crf)) ∧
      cmd.getLast? = some (quote out) := by
  refine ⟨_, ffmpeg_command_ok out crf hin hp, ⟨7, rfl, rfl⟩, rfl⟩

/-- Witness for C3 on a concrete filesystem with quality 23. -/
theorem C3_witness :
    ∃ cmd, ffmpeg_command ⟨["r"], [⟨"r", "b.mp4", .raw⟩]⟩ "linux" "r" "b.mp4"
        "r/b_CONVERTED.mp4" 23 = .ok cmd ∧
      (∃ i, cmd.get? i = some "-crf" ∧ cmd.get? (i + 1) = some (toString (23 : ℤ))) ∧
      cmd.getLast? = some (quote "r/b_CONVERTED.mp4") :=
  C3_ffmpeg_command_crf ⟨["r"], [⟨"r", "b.mp4", .raw⟩]⟩ "linux" "ffmpeg"
    "r" "b.mp4" "r/b_CONVERTED.mp4" 23 (by decide) (by decide)
    (by decide) (by decide)

/-- C4: the size formatter's concrete values `999 ↦ "999.00B"`,
`1000 ↦ "1.00KB"`, `1000000 ↦ "1.00MB"`; for every non-negative count
the printed value is the count scaled by the chosen power of 1000,
rendered with two decimals, and the unit index escalates exactly at
each power-of-1000 boundary. -/
theorem C4_readable_size :
    readable_size 999 = "999.00B" ∧
    readable_size 1000 = "1.00KB" ∧
    readable_size 1000000 = "1.00MB" ∧
    (∀ n : ℤ, 0 ≤ n →
      readable_size n
        = formatFixed2 ((n : ℚ) / (1000 : ℚ) ^ sizeExp n)
          ++ unitName (sizeExp n)) ∧
    (∀ n : ℤ, 0 ≤ n → ∀ k : ℕ, k ≤ 5 →
      (sizeExp n = k ↔
        (((1000 : ℤ) ^ k ≤ n ∨ k = 0) ∧
         (n < (1000 : ℤ) ^ (k + 1) ∨ k = 5)))) := by
  refine ⟨by decide, by decide, by decide, ?_, ?_⟩
  · intro n hn
    rw [readable_size_fmt n]
    have hpow : (0 : ℤ) < 1000 ^ sizeExp n := by positivity
    rw [← fmt2_div_eq hpow]
    have hc : (((1000 : ℤ) ^ sizeExp n : ℤ) : ℚ) = (1000 : ℚ) ^ sizeExp n := by
      push_cast
      ring
    rw [hc]
  · intro n hn k hk
    interval_cases k <;> simp only [sizeExp] <;> split_ifs <;> norm_num <;> omega

/-- Witness for C4's general clauses at `n = 1500` and the boundary
clause at `n = 5000`, `k = 1`. -/
theorem C4_witness :
    (readable_size 1500
      = formatFixed2 ((1500 : ℚ) / (1000 : ℚ) ^ sizeExp 1500)
        ++ unitName (sizeExp 1500)) ∧
    (sizeExp 5000 = 1 ↔
      (((1000 : ℤ) ^ 1 ≤ 5000 ∨ 1 = 0) ∧
       ((5000 : ℤ) < (1000 : ℤ) ^ (1 + 1) ∨ 1 = 5))) :=
  ⟨C4_readable_size.2.2.2.1 1500 (by norm_num),
   C4_readable_size.2.2.2.2 5000 (by norm_num) 1 (by norm_num)⟩

/-- C5: the two entry checks: `main` raises `NotADirectoryError` (with
the filesystem untouched and no dispatch) exactly when the root is not
a directory, and `ffmpeg_command` raises its file-missing error exactly
when the input does not exist; both checks are pure and precede any
filesystem modification. -/
theorem C5_entry_checks :
    (∀ platform ff (fs : FS) root a, fs.isDir root = false →
       main platform ff fs root a
         = (fs, [], some (.notADirectoryError "Path is not a directory."))) ∧
    (∀ (fs : FS) platform iD iN out crf, fs.isFile iD iN = false →
       ffmpeg_command fs platform iD iN out crf
         = .error (.fileExistsError
             ("File " ++ quote (joinPath iD iN) ++ " does not exist"))) ∧
    (∀ platform ff (fs : FS) root a m,
       (main platform ff fs root a).2.2 = some (.notADirectoryError m) →
       fs.isDir root = false) ∧
    (∀ (fs : FS) platform iD iN out crf m,
       ffmpeg_command fs platform iD iN out crf
         = .error (.fileExistsError m) →
       fs.isFile iD iN = false) := by
  refine ⟨?_, ?_, ?_, ?_⟩
  · intro platform ff fs root a h
    rw [main_eq, if_pos (by simp [h])]
  · intro fs platform iD iN out crf h
    unfold ffmpeg_command
    rw [if_pos (by simp [h])]
  · intro platform ff fs root a m h
    by_contra hdir
    have hdir' : fs.isDir root = true := by simpa using hdir
    rw [main_eq, if_neg (by simp [hdir'])] at h
    exact walk_no_notADir platform ff a _ fs m h
  · intro fs platform iD iN out crf m h
    by_contra hin
    have hin' : fs.isFile iD iN = true := by simpa using hin
    unfold ffmpeg_command at h
    rw [if_neg (by simp [hin'])] at h
    cases hp : ffmpeg_path_for platform with
    | none =>
      rw [hp] at h
      simp only [Except.error.injEq] at h
      exact PyError.noConfusion h
    | some p =>
      rw [hp] at h
      simp at h

/-- Witness for C5 on concrete filesystems: a missing root directory
and a missing video input. -/
theorem C5_witness :
    main "linux" (fun _ _ => (true, 0)) ⟨[], []⟩ "r" ⟨false, 0, 70, 23⟩
      = (⟨[], []⟩, [],
         some (.notADirectoryError "Path is not a directory.")) ∧
    ffmpeg_command ⟨["r"], []⟩ "linux" "r" "b.mp4" "out" 23
      = .error (.fileExistsError
          ("File " ++ quote (joinPath "r" "b.mp4") ++ " does not exist")) :=
  ⟨C5_entry_checks.1 "linux" (fun _ _ => (true, 0)) ⟨[], []⟩ "r"
     ⟨false, 0, 70, 23⟩ (by decide),
   C5_entry_checks.2.1 ⟨["r"], []⟩ "linux" "r" "b.mp4" "out" 23 (by decide)⟩

/-- C6: the dispatcher never routes a file whose stem carries the
converted tag: every dispatch event the walk emits concerns a file with
an untagged stem. -/
theorem C6_tagged_never_dispatched (platform : String)
    (ff : String → String → Bool × ℤ) (fs : FS) (root : String) (a : Args) :
    ∀ ev ∈ (main platform ff fs root a).2.1,
      taggedStem ev.origName = false := by
  intro ev hev
  rw [main_eq] at hev
  by_cases hdir : fs.isDir root = true
  · rw [if_neg (by simp [hdir])] at hev
    exact walk_events platform ff a _ fs ev hev
  · rw [if_pos (by simpa using hdir)] at hev
    simp at hev

/-- Witness for C6 on a run over a folder holding one tagged and one
untagged image: the only dispatch is of the untagged one. -/
theorem C6_witness :
    taggedStem (Event.origName (.image "r" "b.png" "b_CONVERTED.png"))
      = false :=
  C6_tagged_never_dispatched "linux" (fun _ _ => (true, 0))
    ⟨["r"], [⟨"r", "a_CONVERTED.png", .img 8 6 (some "x")⟩,
      ⟨"r", "b.png", .img 8 6 (some "x")⟩]⟩ "r" ⟨false, 0, 70, 23⟩
    (.image "r" "b.png" "b_CONVERTED.png") (by decide)

/-- C7: the walk is idempotent: if a run completes without error and
every external conversion produced its output, a second run over the
same folder changes nothing and dispatches nothing. -/
theorem C7_second_run_noop (platform : String)
    (ff : String → String → Bool × ℤ) (fs : FS) (root : String) (a : Args)
    (fs1 : FS) (ev1 : List Event)
    (hff : ∀ x y, (ff x y).1 = true)
    (h1 : main platform ff fs root a = (fs1, ev1, none)) :
    main platform ff fs1 root a = (fs1, [], none) := by
  rw [main_eq] at h1
  by_cases hdir : fs.isDir root = true
  · rw [if_neg (by simp [hdir])] at h1
    have hgood : Good root fs1 :=
      walk_estab hff (snapshot fs root) fs fs1 ev1 h1 (pending_init root fs)
    have hdirs : fs1.dirs = fs.dirs := by
      have hd := walk_dirs platform ff a (snapshot fs root) fs
      rw [h1] at hd
      exact hd
    have hdir1 : fs1.isDir root = true := by
      unfold FS.isDir at hdir ⊢
      rw [hdirs]
      exact hdir
    rw [main_eq, if_neg (by simp [hdir1])]
    exact walk_skip (snapshot fs1 root) fs1 hgood
      (fun en hen => snapshot_mem hen)
  · rw [if_pos (by simpa using hdir)] at h1
    simp only [Prod.mk.injEq] at h1
    exact absurd h1.2.2 (by simp)

/-- Witness for C7: the concrete one-image run from the scenario in the
spec, then a second run over the result. -/
theorem C7_witness :
    main "linux" (fun _ _ => (true, 0))
      ⟨["r"], [⟨"r", "a_CONVERTED.png", .img 400 300 (some "x")⟩,
        ⟨"r", "a.png", .img 800 600 (some "x")⟩]⟩ "r" ⟨false, 400, 70, 23⟩
      = (⟨["r"], [⟨"r", "a_CONVERTED.png", .img 400 300 (some "x")⟩,
          ⟨"r", "a.png", .img 800 600 (some "x")⟩]⟩, [], none) :=
  C7_second_run_noop "linux" (fun _ _ => (true, 0))
    ⟨["r"], [⟨"r", "a.png", .img 800 600 (some "x")⟩]⟩ "r"
    ⟨false, 400, 70, 23⟩
    ⟨["r"], [⟨"r", "a_CONVERTED.png", .img 400 300 (some "x")⟩,
      ⟨"r", "a.png", .img 800 600 (some "x")⟩]⟩
    [.image "r" "a.png" "a_CONVERTED.png"]
    (fun _ _ => rfl) (by decide)

/-- C8: the resizer carries the source's EXIF forward into the saved
output; a source without EXIF raises `KeyError`; and an error in any
file aborts the whole walk at that file, leaving the remaining entries
unprocessed. -/
theorem C8_exif_handling :
    (∀ (fs : FS) oD oN nD nN w h ex t del q, 0 < w →
       fs.getData oD oN = some (.img w h (some ex)) →
       ¬(nD = oD ∧ nN = oN) →
       ∃ fs', image_resize fs oD oN nD nN t del q = .ok fs' ∧
         fs'.getData nD nN = some (.img (image_resize_dims w h t).1
           (image_resize_dims w h t).2 (some ex))) ∧
    (∀ (fs : FS) oD oN nD nN w h t del q, 0 < w →
       fs.getData oD oN = some (.img w h none) →
       image_resize fs oD oN nD nN t del q = .error .keyError) ∧
    (∀ platform ff a (fs : FS) root file rest e,
       processFile platform ff a fs root file = .error e →
       walkFiles platform ff a ((root, file) :: rest) fs
         = (fs, [], some e)) := by
  refine ⟨?_, ?_, ?_⟩
  · intro fs oD oN nD nN w h ex t del q hw hgd hne
    rw [image_resize_eq, hgd]
    simp only []
    rw [if_neg (by omega)]
    cases del with
    | true =>
      refine ⟨_, rfl, ?_⟩
      rw [getData_removeFile_of_ne hne]
      exact getData_addFile_self fs nD nN _
    | false =>
      exact ⟨_, rfl, getData_addFile_self fs nD nN _⟩
  · intro fs oD oN nD nN w h t del q hw hgd
    rw [image_resize_eq, hgd]
    simp only []
    rw [if_neg (by omega)]
  · intro platform ff a fs root file rest e hstep
    rw [walkFiles_cons, hstep]

/-- Witness for C8 on concrete images with and without EXIF, and a walk
aborted by the EXIF-less one. -/
theorem C8_witness :
    (∃ fs', image_resize ⟨["r"], [⟨"r", "a.png", .img 800 600 (some "x")⟩]⟩
        "r" "a.png" "r" "a_CONVERTED.png" 400 false 70 = .ok fs' ∧
      fs'.getData "r" "a_CONVERTED.png"
        = some (.img (image_resize_dims 800 600 400).1
            (image_resize_dims 800 600 400).2 (some "x"))) ∧
    image_resize ⟨["r"], [⟨"r", "c.png", .img 800 600 none⟩]⟩
      "r" "c.png" "r" "c_CONVERTED.png" 400 false 70 = .error .keyError ∧
    walkFiles "linux" (fun _ _ => (true, 0)) ⟨false, 400, 70, 23⟩
      [("r", "c.png"), ("r", "d.png")]
      ⟨["r"], [⟨"r", "c.png", .img 800 600 none⟩,
        ⟨"r", "d.png", .img 800 600 (some "x")⟩]⟩
      = (⟨["r"], [⟨"r", "c.png", .img 800 600 none⟩,
          ⟨"r", "d.png", .img 800 600 (some "x")⟩]⟩, [], some .keyError) :=
  ⟨C8_exif_handling.1 ⟨["r"], [⟨"r", "a.png", .img 800 600 (some "x")⟩]⟩
     "r" "a.png" "r" "a_CONVERTED.png" 800 600 "x" 400 false 70
     (by decide) (by decide) (by decide),
   C8_exif_handling.2.1 ⟨["r"], [⟨"r", "c.png", .img 800 600 none⟩]⟩
     "r" "c.png" "r" "c_CONVERTED.png" 800 600 400 false 70
     (by decide) (by decide),
   C8_exif_handling.2.2 "linux" (fun _ _ => (true, 0)) ⟨false, 400, 70, 23⟩
     ⟨["r"], [⟨"r", "c.png", .img 800 600 none⟩,
       ⟨"r", "d.png", .img 800 600 (some "x")⟩]⟩
     "r" "c.png" [("r", "d.png")] .keyError rfl⟩

/-- C9: on a platform matching none of the five listed prefixes the
command builder fails with `UnboundLocalError` even for an existing
input, while on `win32` and `cygwin` it returns a command whose first
element is the empty string. -/
theorem C9_platform_gap :
    (∀ platform : String,
       startsWithL "freebsd".toList platform.toList = false →
       startsWithL "linux".toList platform.toList = false →
       startsWithL "win32".toList platform.toList = false →
       startsWithL "cygwin".toList platform.toList = false →
       startsWithL "darwin".toList platform.toList = false →
       ∀ (fs : FS) iD iN out crf, fs.isFile iD iN = true →
         ffmpeg_command fs platform iD iN out crf
           = .error .unboundLocalError) ∧
    (∀ (fs : FS) iD iN out crf, fs.isFile iD iN = true →
       (∃ cmd, ffmpeg_command fs "win32" iD iN out crf = .ok cmd ∧
          cmd.head? = some "") ∧
       (∃ cmd, ffmpeg_command fs "cygwin" iD iN out crf = .ok cmd ∧
          cmd.head? = some "")) := by
  constructor
  · intro platform h1 h2 h3 h4 h5 fs iD iN out crf hin
    unfold ffmpeg_command
    rw [if_neg (by simp [hin])]
    unfold ffmpeg_path_for
    have mk : ∀ (pat : String),
        startsWithL pat.toList platform.toList = false →
        ¬(startsWithL pat.toList platform.toList = true) :=
      fun pat hf hc => Bool.noConfusion (hf ▸ hc)
    rw [if_neg (mk "freebsd" h1), if_neg (mk "linux" h2),
      if_neg (mk "win32" h3), if_neg (mk "cygwin" h4), if_neg (mk "darwin" h5)]
  · intro fs iD iN out crf hin
    constructor
    · exact ⟨_, ffmpeg_command_ok out crf hin (by decide), rfl⟩
    · exact ⟨_, ffmpeg_command_ok out crf hin (by decide), rfl⟩

/-- Witness for C9 on the real platform string `"aix"` (a platform
Python reports that the script does not handle). -/
theorem C9_witness :
    ffmpeg_command ⟨["r"], [⟨"r", "b.mp4", .raw⟩]⟩ "aix" "r" "b.mp4"
      "out" 23 = .error .unboundLocalError :=
  C9_platform_gap.1 "aix" (by decide) (by decide) (by decide) (by decide)
    (by decide) ⟨["r"], [⟨"r", "b.mp4", .raw⟩]⟩ "r" "b.mp4" "out" 23
    (by decide)

/-- C10: the size formatter accepts negative integers without raising:
they fall into the bytes branch and are printed by the `.2f` specifier
with the `B` suffix. -/
theorem C10_readable_size_negative (n : ℤ) (h : n < 0) :
    readable_size n = formatFixed2 ((n : ℤ) : ℚ) ++ "B" := by
  have hb : readable_size n = fmt2 n 1 ++ "B" := by
    simp only [readable_size]
    rw [if_pos (by omega)]
  rw [hb, ← fmt2_div_eq (by norm_num : (0 : ℤ) < 1)]
  norm_num

/-- Witness for C10 at `-5`, which formats to `"-5.00B"`. -/
theorem C10_witness :
    readable_size (-5) = formatFixed2 (((-5 : ℤ)) : ℚ) ++ "B" ∧
    readable_size (-5) = "-5.00B" :=
  ⟨C10_readable_size_negative (-5) (by norm_num), by decide⟩

end Optimize


